import Mathlib

/-!
Verification of the Term Normalization & Field Validation Engine of the
IonicLink repository.  The definitions below are a shallow embedding of
`frontend/src/composables/useValidation.ts` and of the record-editing
handlers of the data-preview components; strings are modelled as `List Char`
and JavaScript numbers as exact rationals.
-/

namespace IonicLink

/-- Strings are modelled as lists of characters. -/
abbrev Str := List Char

/-- Character class of the JS regex fragment `\d`: a decimal digit. -/
def isDigitCh (c : Char) : Bool :=
  48 ≤ c.toNat && c.toNat ≤ 57

/-- Character class of the JS regex fragment `[\d.]`: a decimal digit or a
dot. -/
def isNumCh (c : Char) : Bool :=
  isDigitCh c || c.toNat == 46

/-- Character class of the JS regex fragment `[a-zA-Zµ]`: ASCII letters and
the micro sign U+00B5. -/
def isUnitCh (c : Char) : Bool :=
  (97 ≤ c.toNat && c.toNat ≤ 122) || (65 ≤ c.toNat && c.toNat ≤ 90) || c.toNat == 181

/-- Character class of the JS regex fragment `\s` (also the character set
removed by `String.prototype.trim`): whitespace and line terminators. -/
def isWsCh (c : Char) : Bool :=
  (9 ≤ c.toNat && c.toNat ≤ 13) || c.toNat == 32 || c.toNat == 160 ||
  c.toNat == 5760 || (8192 ≤ c.toNat && c.toNat ≤ 8202) ||
  c.toNat == 8232 || c.toNat == 8233 || c.toNat == 8239 ||
  c.toNat == 8287 || c.toNat == 12288 || c.toNat == 65279

/-- Numeric value of a list of decimal digits (most significant first). -/
def digitsToQ (s : Str) : ℚ :=
  s.foldl (fun a c => 10 * a + ((c.toNat : ℚ) - 48)) 0

/-- Variant of `digitsToQ` computed in `ℕ` (for evaluating concrete digit strings). -/
def digitsToNat (s : Str) : ℕ :=
  s.foldl (fun a c => 10 * a + (c.toNat - 48)) 0

/-- JS `parseFloat`, restricted to the character material that can reach it
in this code base (digits and dots from the unit-value regex, and the
characters surviving `validateCOF`'s strip — no sign, exponent, whitespace
or `Infinity` prefix can occur there): longest prefix of the form
`digits [. digits]` containing at least one digit, else `NaN` (`none`). -/
def parseFloatQ (s : Str) : Option ℚ :=
  let ip := s.takeWhile isDigitCh
  let r1 := s.dropWhile isDigitCh
  match r1 with
  | '.' :: r2 =>
      let fp := r2.takeWhile isDigitCh
      if ip.isEmpty && fp.isEmpty then none
      else some (digitsToQ ip + digitsToQ fp / 10 ^ fp.length)
  | _ => if ip.isEmpty then none else some (digitsToQ ip)

/-- Success test of the regex `([\d.]+)\s*([a-zA-Zµ]+)` at the start of the
string: a digit/dot character, whose maximal digit/dot run, followed by a
maximal whitespace run, is followed by a unit letter. -/
def headTest (s : Str) : Bool :=
  match s with
  | [] => false
  | c :: _ =>
    isNumCh c &&
      (match ((s.dropWhile isNumCh).dropWhile isWsCh).head? with
       | some d => isUnitCh d
       | none => false)

/-- Left-to-right scan of `String.prototype.match` with the regex
`([\d.]+)\s*([a-zA-Zµ]+)`: at the first position where the pattern
matches, return the two (greedy) capture groups. -/
def scanUnit : Str → Option (Str × Str)
  | [] => none
  | c :: cs =>
      if headTest (c :: cs) then
        some ((c :: cs).takeWhile isNumCh,
              (((c :: cs).dropWhile isNumCh).dropWhile isWsCh).takeWhile isUnitCh)
      else scanUnit cs

/-- Structure `UnitValue` of `useValidation.ts`. -/
structure UnitValue where
  value : ℚ
  unit : Str
deriving DecidableEq

/-- JS falsiness of a `string | undefined` argument: `undefined` or `""`. -/
def jsFalsy : Option Str → Bool
  | none => true
  | some [] => true
  | some (_ :: _) => false

/-- Function `parseUnitValue` of `useValidation.ts`. -/
def parseUnitValue (valueWithUnit : Option Str) : Option UnitValue :=
  if jsFalsy valueWithUnit then none
  else
    match valueWithUnit with
    | none => none
    | some s =>
      match scanUnit s with
      | none => none
      | some (numPart, unitPart) =>
        match parseFloatQ numPart with
        | none => none
        | some v => some ⟨v, unitPart⟩

/-- The conversion table of `convertToNewtons` (`N`, `mN`, `µN`, `uN`, `nN`). -/
def convFactor (unit : Str) : Option ℚ :=
  if unit = ("N").data then some 1
  else if unit = ("mN").data then some (1 / 1000)
  else if unit = ("µN").data then some (1 / 1000000)
  else if unit = ("uN").data then some (1 / 1000000)
  else if unit = ("nN").data then some (1 / 1000000000)
  else none

/-- Function `convertToNewtons` of `useValidation.ts`. -/
def convertToNewtons (valueWithUnit : Option Str) : Option ℚ :=
  match parseUnitValue valueWithUnit with
  | none => none
  | some uv =>
    match convFactor uv.unit with
    | none => none
    | some factor => some (uv.value * factor)

/-- Issue severity (`'error' | 'warning'`). -/
inductive Severity where
  | error
  | warning
deriving DecidableEq

/-- Structure `ValidationIssue` of `useValidation.ts`. -/
structure ValidationIssue where
  field : Str
  message : Str
  severity : Severity
deriving DecidableEq

/-- Enumeration `ValidationStatus` of the record model
(`unverified | modified | warning | verified`). -/
inductive VStatus where
  | unverified
  | modified
  | warning
  | verified
deriving DecidableEq

/-- Test `i.severity === "error"` (written with JS triple equals). -/
def isErr (i : ValidationIssue) : Bool :=
  match i.severity with
  | Severity.error => true
  | Severity.warning => false

/-- Test `i.severity === "warning"` (written with JS triple equals). -/
def isWarn (i : ValidationIssue) : Bool :=
  match i.severity with
  | Severity.error => false
  | Severity.warning => true

/-- The `String.prototype.trim` operation. -/
def trimStr (s : Str) : Str :=
  ((s.dropWhile isWsCh).reverse.dropWhile isWsCh).reverse

/-- The strip step of `validateCOF`: `cof.replace(/[^\\d.]/g, '')`.  In a JS
regex literal `\\` is an escaped literal backslash, so the negated class
matches every character other than backslash, `d` and `.`; the replacement
therefore keeps only backslashes, the letter `d`, and dots. -/
def cofStrip (s : Str) : Str :=
  s.filter (fun c => c == '\\' || c == 'd' || c == '.')

def fieldCof : Str := ("cof").data
def fieldLoad : Str := ("load").data
def fieldFF : Str := ("friction_force").data

def msgMissingCOF : Str := ("Missing COF value").data
def msgInvalidCOF : Str := ("Invalid COF format").data
def msgNegativeCOF : Str := ("COF cannot be negative").data
def msgUnusualCOF : Str := ("COF > 1.5 is physically unusual").data
def msgLoadUnit : Str := ("Load value must include unit (e.g., 5 N, 100 mN)").data
def msgLoadUnsupported : Str := ("Unsupported unit for load").data
def msgForceUnit : Str := ("Force value must include unit (e.g., 5 N, 100 mN)").data

/-- Function `validateCOF` of `useValidation.ts`. -/
def validateCOF (cof : Option Str) : Option ValidationIssue :=
  match cof with
  | none => some ⟨fieldCof, msgMissingCOF, Severity.warning⟩
  | some s =>
    if s = [] ∨ s = ("-").data ∨ trimStr s = [] then
      some ⟨fieldCof, msgMissingCOF, Severity.warning⟩
    else
      match parseFloatQ (cofStrip s) with
      | none => some ⟨fieldCof, msgInvalidCOF, Severity.warning⟩
      | some cofValue =>
        if cofValue < 0 then some ⟨fieldCof, msgNegativeCOF, Severity.error⟩
        else if cofValue > 3 / 2 then some ⟨fieldCof, msgUnusualCOF, Severity.warning⟩
        else none

/-- Function `validateLoad` of `useValidation.ts`. -/
def validateLoad (load : Option Str) : Option ValidationIssue :=
  if jsFalsy load then none
  else
    match parseUnitValue load with
    | none => some ⟨fieldLoad, msgLoadUnit, Severity.warning⟩
    | some _ =>
      match convertToNewtons load with
      | none => some ⟨fieldLoad, msgLoadUnsupported, Severity.warning⟩
      | some _ => none

/-- Function `validateFrictionForce` of `useValidation.ts`; unlike `validateLoad`, it
performs no conversion-table check. -/
def validateFrictionForce (force : Option Str) : Option ValidationIssue :=
  if jsFalsy force then none
  else
    match parseUnitValue force with
    | none => some ⟨fieldFF, msgForceUnit, Severity.warning⟩
    | some _ => none

/-- Record type `TribologyData`, restricted to the fields read or written by the
validation engine and the record-editing handlers (the remaining categorical
fields and the `originalValue` backup do not influence any function modelled
here). -/
structure TribologyData where
  id : Option Str
  cof : Option Str
  load : Option Str
  friction_force : Option Str
  validationStatus : Option VStatus
  validationMessage : Option Str
deriving DecidableEq

/-- Structure `ValidationResult` of `useValidation.ts`. -/
structure ValidationResult where
  status : VStatus
  message : Option Str
  issues : List ValidationIssue
deriving DecidableEq

/-- Function `validateRecord` of `useValidation.ts`. -/
def validateRecord (record : TribologyData) : ValidationResult :=
  let issues :=
    (validateCOF record.cof).toList ++ (validateLoad record.load).toList ++
      (validateFrictionForce record.friction_force).toList
  let hasErrors := issues.any isErr
  let hasWarnings := issues.any isWarn
  -- `let status = record.validationStatus || 'unverified'` followed by the
  -- two sequential reassignments of the source.
  let statusA :=
    if hasErrors || hasWarnings then VStatus.warning
    else record.validationStatus.getD VStatus.unverified
  let statusB :=
    if !hasErrors ∧ (record.validationStatus = some VStatus.verified ∨
        record.validationStatus = some VStatus.modified) then
      record.validationStatus.getD VStatus.unverified
    else statusA
  { status := statusB
    message :=
      match issues with
      | [] => none
      | i :: _ => some i.message
    issues := issues }

/-- Insertion-order association list with the lookup/overwrite semantics of a
JS `Map`: `set` replaces the value of an existing key in place and appends a
new key at the end. -/
def mapSet (k : Str) (v : ValidationResult) :
    List (Str × ValidationResult) → List (Str × ValidationResult)
  | [] => [(k, v)]
  | (k', v') :: rest => if k' = k then (k', v) :: rest else (k', v') :: mapSet k v rest

/-- The `Map.prototype.get` operation as an association-list lookup. -/
def mapLookup (k : Str) : List (Str × ValidationResult) → Option ValidationResult
  | [] => none
  | (k', v') :: rest => if k' = k then some v' else mapLookup k rest

/-- One step of the `records.forEach` loop of `validateBatch`: a record whose
`id` is a truthy string is inserted into the result map. -/
def batchStep (results : List (Str × ValidationResult)) (record : TribologyData) :
    List (Str × ValidationResult) :=
  match record.id with
  | some s => if s = [] then results else mapSet s (validateRecord record) results
  | none => results

/-- Function `validateBatch` of `useValidation.ts`. -/
def validateBatch (records : List TribologyData) : List (Str × ValidationResult) :=
  records.foldl batchStep []

/-- The record fields editable through `updateRecordField` in the
data-preview components. -/
inductive EditField where
  | cof
  | load
  | friction_force
deriving DecidableEq

/-- Dynamic field assignment `record[fieldName] = value` restricted to the
validated fields. -/
def setField (r : TribologyData) (f : EditField) (v : Option Str) : TribologyData :=
  match f with
  | EditField.cof => { r with cof := v }
  | EditField.load => { r with load := v }
  | EditField.friction_force => { r with friction_force := v }

/-- The record transformation of `updateRecordField` (DataPreview): write the
field, mark the record `modified`, re-validate, and store the computed status
and message. -/
def updateRecordField (record : TribologyData) (fieldName : EditField)
    (value : Option Str) : TribologyData :=
  let r1 := setField record fieldName value
  let r2 := { r1 with validationStatus := some VStatus.modified }
  let validation := validateRecord r2
  { r2 with validationStatus := some validation.status,
            validationMessage := validation.message }

/-- The record transformation of `verifyRecord` (DataPreview): toggling off an
already-`verified` record re-runs validation; otherwise force `verified` and
clear the message. -/
def verifyRecord (record : TribologyData) : TribologyData :=
  if record.validationStatus = some VStatus.verified then
    let validation := validateRecord record
    { record with validationStatus := some validation.status,
                  validationMessage := validation.message }
  else
    { record with validationStatus := some VStatus.verified,
                  validationMessage := none }

/-- The record transformation of `markAllAsVerified` (DataPreview), applied to
every record of the selected file: promote to `verified` and clear the message
when the computed issue list has no `error`-severity issue, otherwise leave
the record untouched. -/
def markAllAsVerified (records : List TribologyData) : List TribologyData :=
  records.map fun record =>
    let validation := validateRecord record
    if validation.issues.all (fun i => !isErr i) then
      { record with validationStatus := some VStatus.verified,
                    validationMessage := none }
    else record

/-! ### Specification-side definitions

The following definitions restate parts of the specification in terms
independent of the scanning/lookup code above; theorems compare the two. -/

/-- The force conversion table as the specification states it:
`N→1, mN→1e-3, µN→1e-6, uN→1e-6, nN→1e-9`. -/
def specUnitTable : List (Str × ℚ) :=
  [(("N").data, 1), (("mN").data, 1 / 1000), (("µN").data, 1 / 1000000),
   (("uN").data, 1 / 1000000), (("nN").data, 1 / 1000000000)]

/-- The regex `([\d.]+)\s*([a-zA-Zµ]+)` matches at the start of `t`: `t`
begins with a non-empty digit/dot run, then optional whitespace, then at
least one unit letter. -/
def MatchAt (t : Str) : Prop :=
  ∃ d w u b, t = d ++ (w ++ (u ++ b)) ∧ d ≠ [] ∧ (∀ c ∈ d, isNumCh c = true) ∧
    (∀ c ∈ w, isWsCh c = true) ∧ u ≠ [] ∧ (∀ c ∈ u, isUnitCh c = true)

/-- Predicate stating that `d`/`u` are the two capture groups of the leftmost (greedy) match of
`([\d.]+)\s*([a-zA-Zµ]+)` in `s`: `s` decomposes around them, the unit run is
maximal, and no match starts earlier. -/
def FirstMatch (s a d w u b : Str) : Prop :=
  s = a ++ (d ++ (w ++ (u ++ b))) ∧ d ≠ [] ∧ (∀ c ∈ d, isNumCh c = true) ∧
    (∀ c ∈ w, isWsCh c = true) ∧ u ≠ [] ∧ (∀ c ∈ u, isUnitCh c = true) ∧
    (∀ c, b.head? = some c → isUnitCh c = false) ∧
    (∀ t, List.IsSuffix t s → (d ++ (w ++ (u ++ b))).length < t.length → ¬ MatchAt t)

/-! ### Term normalizer (knowledge base)

The knowledge-base matcher itself (`il_knowledge_base.py` /
`surface_knowledge_base.py`) ships only as documentation in this repository,
so it is modelled from the specification. -/

/-- Test that `p` is an initial segment of `s` (character-by-character comparison). -/
def leadMatch : Str → Str → Bool
  | [], _ => true
  | _ :: _, [] => false
  | p :: ps, c :: cs => p == c && leadMatch ps cs

/-- Test that `p` occurs as a contiguous substring anywhere in `s`. -/
def findSub (p : Str) : Str → Bool
  | [] => leadMatch p []
  | c :: cs => leadMatch p (c :: cs) || findSub p cs

/-- Case folding (lower-casing) of a candidate string. -/
def fold (s : Str) : Str := s.map Char.toLower

/-- Bracket/space stripping of the normalized-form tier. -/
def stripNorm (s : Str) : Str :=
  s.filter fun c =>
    !(isWsCh c || c == '[' || c == ']' || c == '(' || c == ')')

/-- Modelled from the spec: a `KnowledgeEntry` with its canonical term, its
alias set and its ordered pattern expressions.  Pattern expressions are
regular-expression-style rules in the source; they are modelled here as
literal substrings, matched case-insensitively anywhere in the input. -/
structure KnowledgeEntry where
  canonicalTerm : Str
  aliases : List Str
  patterns : List Str
deriving DecidableEq

/-- Modelled from the spec: `TermNormalizer.normalize`, the multi-tier
matcher of §4.2 — exact case-folded trimmed alias match, then first pattern
match in declaration order, then bracket/space-stripped alias match, then
pass-through of the trimmed input. -/
def normalize (kb : List KnowledgeEntry) (x : Str) : Str :=
  match kb.find? (fun e => decide (fold (trimStr x) ∈ e.aliases.map fold)) with
  | some e => e.canonicalTerm
  | none =>
    match kb.find? (fun e => e.patterns.any fun p => findSub (fold p) (fold x)) with
    | some e => e.canonicalTerm
    | none =>
      match kb.find?
          (fun e => decide (stripNorm (fold x) ∈ e.aliases.map fun a => stripNorm (fold a))) with
      | some e => e.canonicalTerm
      | none => trimStr x

/-- The construction invariant of the knowledge base (§4.1/§4.2): no two
entries share a case-folded alias, and every canonical term is (after
trimming and case folding) an alias of its own entry. -/
def KBWellFormed (kb : List KnowledgeEntry) : Prop :=
  (∀ e1 ∈ kb, ∀ e2 ∈ kb, ∀ y ∈ e1.aliases.map fold,
      y ∈ e2.aliases.map fold → e1 = e2) ∧
  ∀ e ∈ kb, fold (trimStr e.canonicalTerm) ∈ e.aliases.map fold

/-- A two-entry fixture knowledge base (drawn from the surface-material
README) used to witness the normalizer theorems on concrete data. -/
def fixtureKB : List KnowledgeEntry :=
  [⟨("Mica").data, [("mica").data, ("muscovite").data], [("mica").data]⟩,
   ⟨("HOPG").data, [("hopg").data, ("pyrolytic graphite").data], [("hopg").data]⟩]

/-! ### Generic list lemmas -/

theorem takeWhile_append_all {p : Char → Bool} {l r : Str}
    (h : ∀ c ∈ l, p c = true) : (l ++ r).takeWhile p = l ++ r.takeWhile p := by
  induction l with
  | nil => simp
  | cons c cs ih =>
    simp only [List.cons_append, List.takeWhile_cons, h c (List.mem_cons_self c cs),
      if_true, List.cons.injEq, true_and]
    exact ih fun d hd => h d (List.mem_cons_of_mem c hd)

theorem dropWhile_append_all {p : Char → Bool} {l r : Str}
    (h : ∀ c ∈ l, p c = true) : (l ++ r).dropWhile p = r.dropWhile p := by
  induction l with
  | nil => simp
  | cons c cs ih =>
    simp only [List.cons_append, List.dropWhile_cons, h c (List.mem_cons_self c cs),
      if_true]
    exact ih fun d hd => h d (List.mem_cons_of_mem c hd)

theorem takeWhile_all {p : Char → Bool} {l : Str}
    (h : ∀ c ∈ l, p c = true) : l.takeWhile p = l := by
  induction l with
  | nil => rfl
  | cons c cs ih =>
    simp only [List.takeWhile_cons, h c (List.mem_cons_self c cs), if_true,
      List.cons.injEq, true_and]
    exact ih fun d hd => h d (List.mem_cons_of_mem c hd)

theorem takeWhile_nil_of_head {p : Char → Bool} {l : Str}
    (h : ∀ c, l.head? = some c → p c = false) : l.takeWhile p = [] := by
  cases l with
  | nil => rfl
  | cons c cs => simp [List.takeWhile_cons, h c rfl]

theorem dropWhile_self_of_head {p : Char → Bool} {l : Str}
    (h : ∀ c, l.head? = some c → p c = false) : l.dropWhile p = l := by
  cases l with
  | nil => rfl
  | cons c cs => simp [List.dropWhile_cons, h c rfl]

theorem dropWhile_head_not {p : Char → Bool} {l : Str} {c : Char}
    (h : (l.dropWhile p).head? = some c) : p c = false := by
  induction l with
  | nil => simp at h
  | cons a as ih =>
    rw [List.dropWhile_cons] at h
    by_cases hp : p a = true
    · rw [if_pos hp] at h; exact ih h
    · rw [if_neg hp] at h
      simp only [List.head?_cons, Option.some.injEq] at h
      exact h ▸ Bool.eq_false_iff.mpr hp

/-! ### The COF regex slip -/

theorem cofStrip_no_digit (s : Str) : ∀ c ∈ cofStrip s, isDigitCh c = false := by
  intro c hc
  have h := (List.mem_filter.mp hc).2
  simp only [Bool.or_eq_true, beq_iff_eq] at h
  rcases h with (h | h) | h <;> subst h <;> decide

theorem takeWhile_nil_of_all {p : Char → Bool} {l : Str}
    (h : ∀ c ∈ l, p c = false) : l.takeWhile p = [] := by
  cases l with
  | nil => rfl
  | cons c cs => simp [List.takeWhile_cons, h c (List.mem_cons_self c cs)]

theorem dropWhile_self_of_all {p : Char → Bool} {l : Str}
    (h : ∀ c ∈ l, p c = false) : l.dropWhile p = l := by
  cases l with
  | nil => rfl
  | cons c cs => simp [List.dropWhile_cons, h c (List.mem_cons_self c cs)]

theorem parseFloatQ_no_digit {s : Str}
    (h : ∀ c ∈ s, isDigitCh c = false) : parseFloatQ s = none := by
  cases s with
  | nil => rfl
  | cons a as =>
    have ha : isDigitCh a = false := h a (List.mem_cons_self a as)
    have has : ∀ c ∈ as, isDigitCh c = false :=
      fun c hc => h c (List.mem_cons_of_mem a hc)
    unfold parseFloatQ
    simp only [List.takeWhile_cons, List.dropWhile_cons, ha, Bool.false_eq_true,
      if_false, ite_false]
    split
    · rename_i r2 heq
      obtain ⟨rfl, rfl⟩ := List.cons_eq_cons.mp heq
      simp [takeWhile_nil_of_all has]
    · simp

theorem parseFloatQ_cofStrip (s : Str) : parseFloatQ (cofStrip s) = none :=
  parseFloatQ_no_digit (cofStrip_no_digit s)

theorem validateCOF_all_warn (cof : Option Str) :
    (validateCOF cof).all isWarn = true := by
  cases cof with
  | none => rfl
  | some s =>
    simp only [validateCOF]
    rw [parseFloatQ_cofStrip]
    split <;> rfl

theorem isErr_false_of_isWarn {i : ValidationIssue}
    (h : isWarn i = true) : isErr i = false := by
  cases hs : i.severity with
  | error =>
    unfold isWarn at h
    rw [hs] at h
    simp at h
  | warning =>
    unfold isErr
    rw [hs]

theorem validateLoad_all_warn (load : Option Str) :
    (validateLoad load).all isWarn = true := by
  unfold validateLoad
  split
  · rfl
  · cases parseUnitValue load with
    | none => rfl
    | some uv =>
      cases convertToNewtons load with
      | none => rfl
      | some n => rfl

theorem validateFrictionForce_all_warn (force : Option Str) :
    (validateFrictionForce force).all isWarn = true := by
  unfold validateFrictionForce
  split
  · rfl
  · cases parseUnitValue force with
    | none => rfl
    | some uv => rfl

theorem toList_any_isErr_false {o : Option ValidationIssue}
    (h : o.all isWarn = true) : o.toList.any isErr = false := by
  cases o with
  | none => rfl
  | some i =>
    simp only [Option.all_some] at h
    simp [isErr_false_of_isWarn h]

theorem validateRecord_no_err (r : TribologyData) :
    (validateRecord r).issues.any isErr = false := by
  show ((validateCOF r.cof).toList ++ (validateLoad r.load).toList ++
      (validateFrictionForce r.friction_force).toList).any isErr = false
  simp only [List.any_append, Bool.or_eq_false_iff]
  exact ⟨⟨toList_any_isErr_false (validateCOF_all_warn r.cof),
    toList_any_isErr_false (validateLoad_all_warn r.load)⟩,
    toList_any_isErr_false (validateFrictionForce_all_warn r.friction_force)⟩

/-! ### Claims about `validateCOF` (C1, C3) -/

/-- C1: the spec says that a COF string whose stripped numeric part parses to
a value in `[0, 1.5]` (such as `"0"`, `"1.5"`, `"< 0.02"`) yields no issue,
and that a value above `1.5` (such as `"1.51"`) yields the
"physically unusual" warning.  The code's strip regex `/[^\\d.]/g` keeps only
backslashes, the letter `d` and dots — it removes every digit — so each of
these inputs instead yields the warning "Invalid COF format". -/
theorem C1_cof_range_check_unreachable :
    validateCOF (some (("0").data)) =
      some ⟨fieldCof, msgInvalidCOF, Severity.warning⟩ ∧
    validateCOF (some (("1.5").data)) =
      some ⟨fieldCof, msgInvalidCOF, Severity.warning⟩ ∧
    validateCOF (some (("1.51").data)) =
      some ⟨fieldCof, msgInvalidCOF, Severity.warning⟩ ∧
    validateCOF (some (("< 0.02").data)) =
      some ⟨fieldCof, msgInvalidCOF, Severity.warning⟩ := by
  refine ⟨by decide, by decide, by decide, by decide⟩

/-- C3: the spec says `"-0.1"` yields the error-severity issue "COF cannot be
negative".  Because the strip regex removes every digit, `"-0.1"` yields the
warning "Invalid COF format" instead, and no COF input whatsoever can produce
an error-severity issue. -/
theorem C3_negative_cof_error_unreachable :
    validateCOF (some (("-0.1").data)) =
      some ⟨fieldCof, msgInvalidCOF, Severity.warning⟩ ∧
    ∀ cof : Option Str, (validateCOF cof).all isWarn = true :=
  ⟨by decide, validateCOF_all_warn⟩

/-! ### Claims about the record state machine (C7, C8, C2) -/

/-- C7: "verify all" promotes to `verified` (and clears the message) exactly
the records whose computed issue list has no `error`-severity issue, and
leaves a record with an error at its re-validated status.  (The error branch
is vacuous in the shipped code: no validator can emit an `error`-severity
issue, because the COF strip regex makes the negative-value branch
unreachable, so every record is promoted.) -/
theorem C7_markAllAsVerified_promotes_no_error (rs : List TribologyData) :
    markAllAsVerified rs = rs.map fun r =>
      if (validateRecord r).issues.all (fun i => !isErr i) then
        { r with validationStatus := some VStatus.verified,
                 validationMessage := none }
      else
        { r with validationStatus := some (validateRecord r).status,
                 validationMessage := (validateRecord r).message } := by
  unfold markAllAsVerified
  apply List.map_congr_left
  intro r _
  have hna : (validateRecord r).issues.any isErr = false := validateRecord_no_err r
  have hall : (validateRecord r).issues.all (fun i => !isErr i) = true := by
    rw [List.all_eq_true]
    intro i hi
    have hie : isErr i = false := by
      by_contra hcon
      have ht : isErr i = true := by revert hcon; cases isErr i <;> simp
      have : (validateRecord r).issues.any isErr = true :=
        List.any_eq_true.mpr ⟨i, hi, ht⟩
      rw [hna] at this
      exact absurd this (by simp)
    simp [hie]
  simp only [hall, if_true]

/-- C8: a manual verify on a non-`verified` record unconditionally stores
`verified` with a cleared message; on an already-`verified` record it re-runs
automatic validation and stores the computed status and message. -/
theorem C8_verifyRecord_toggle (r : TribologyData) :
    (r.validationStatus ≠ some VStatus.verified →
       verifyRecord r = { r with validationStatus := some VStatus.verified,
                                 validationMessage := none }) ∧
    (r.validationStatus = some VStatus.verified →
       verifyRecord r =
         { r with validationStatus := some (validateRecord r).status,
                  validationMessage := (validateRecord r).message }) := by
  constructor
  · intro h
    unfold verifyRecord
    rw [if_neg h]
  · intro h
    unfold verifyRecord
    rw [if_pos h]

/-- Witness for C8 at two concrete records, one unverified and one
verified. -/
theorem C8_verifyRecord_toggle_witness :
    verifyRecord ⟨some ("r1").data, some ("0.3").data, none, none,
        some VStatus.unverified, none⟩ =
      { (⟨some ("r1").data, some ("0.3").data, none, none,
          some VStatus.unverified, none⟩ : TribologyData) with
          validationStatus := some VStatus.verified, validationMessage := none } ∧
    verifyRecord ⟨some ("r2").data, some ("2.0").data, none, none,
        some VStatus.verified, none⟩ =
      { (⟨some ("r2").data, some ("2.0").data, none, none,
          some VStatus.verified, none⟩ : TribologyData) with
          validationStatus :=
            some (validateRecord ⟨some ("r2").data, some ("2.0").data, none, none,
              some VStatus.verified, none⟩).status,
          validationMessage :=
            (validateRecord ⟨some ("r2").data, some ("2.0").data, none, none,
              some VStatus.verified, none⟩).message } :=
  ⟨(C8_verifyRecord_toggle _).1 (by decide), (C8_verifyRecord_toggle _).2 rfl⟩

/-- Counterexample to C2: a `verified` record whose COF field is `"2.0"`
re-validates to a non-empty issue list, yet its status stays `verified` (the
code keeps a prior `verified`/`modified` status whenever no error-severity
issue is present); editing a `verified` record's COF to `"2.0"` through
`updateRecordField` ends at status `modified` — not `warning` — with message
"Invalid COF format" — not "physically unusual". -/
theorem C2_counterexample :
    (validateRecord ⟨some ("r1").data, some ("2.0").data, none, none,
        some VStatus.verified, none⟩).issues ≠ [] ∧
    (validateRecord ⟨some ("r1").data, some ("2.0").data, none, none,
        some VStatus.verified, none⟩).status = VStatus.verified ∧
    (updateRecordField ⟨some ("r1").data, some ("0.3").data, none, none,
        some VStatus.verified, none⟩ EditField.cof (some (("2.0").data))).validationStatus
      = some VStatus.modified ∧
    (updateRecordField ⟨some ("r1").data, some ("0.3").data, none, none,
        some VStatus.verified, none⟩ EditField.cof (some (("2.0").data))).validationMessage
      = some msgInvalidCOF :=
  ⟨by decide, by decide, by decide, by decide⟩

theorem validateRecord_issues (r : TribologyData) :
    (validateRecord r).issues =
      (validateCOF r.cof).toList ++ (validateLoad r.load).toList ++
        (validateFrictionForce r.friction_force).toList := rfl

theorem issues_nonempty_any {l : List ValidationIssue}
    (h : l ≠ []) : (l.any isErr || l.any isWarn) = true := by
  cases l with
  | nil => exact absurd rfl h
  | cons i rest =>
    cases hs : i.severity with
    | error =>
      have : isErr i = true := by unfold isErr; rw [hs]
      simp [List.any_cons, this]
    | warning =>
      have : isWarn i = true := by unfold isWarn; rw [hs]
      simp [List.any_cons, this]

/-- C2 (amended): a non-empty issue list yields status `warning` only when
the record's stored status is neither `verified` nor `modified` (given that
no issue has error severity, the stored `verified`/`modified` status is kept
instead); editing a `verified` record's COF to `"2.0"` first marks the record
`modified`, so re-validation stores status `modified`, with the message
regenerated from the first issue (with the shipped COF parser that message is
"Invalid COF format"). -/
theorem C2_amended_status_rule :
    (∀ r : TribologyData, (validateRecord r).issues ≠ [] →
      (validateRecord r).status =
        if (validateRecord r).issues.any isErr = false ∧
            (r.validationStatus = some VStatus.verified ∨
             r.validationStatus = some VStatus.modified) then
          r.validationStatus.getD VStatus.unverified
        else VStatus.warning) ∧
    (updateRecordField ⟨some ("r1").data, some ("0.3").data, none, none,
        some VStatus.verified, none⟩ EditField.cof (some (("2.0").data))).validationStatus
      = some VStatus.modified ∧
    (updateRecordField ⟨some ("r1").data, some ("0.3").data, none, none,
        some VStatus.verified, none⟩ EditField.cof (some (("2.0").data))).validationMessage
      = some msgInvalidCOF := by
  refine ⟨?_, by decide, by decide⟩
  intro r h
  have hor := issues_nonempty_any h
  rw [validateRecord_issues r] at hor
  show (validateRecord r).status = _
  by_cases hc : (validateRecord r).issues.any isErr = false ∧
      (r.validationStatus = some VStatus.verified ∨
       r.validationStatus = some VStatus.modified)
  · rw [if_pos hc]
    have hc' := hc
    rw [validateRecord_issues r] at hc'
    show (let issues := (validateCOF r.cof).toList ++ (validateLoad r.load).toList ++
        (validateFrictionForce r.friction_force).toList
      if (!issues.any isErr) = true ∧ (r.validationStatus = some VStatus.verified ∨
          r.validationStatus = some VStatus.modified) then
        r.validationStatus.getD VStatus.unverified
      else if (issues.any isErr || issues.any isWarn) = true then VStatus.warning
      else r.validationStatus.getD VStatus.unverified) = r.validationStatus.getD VStatus.unverified
    rw [if_pos ⟨by rw [hc'.1]; rfl, hc'.2⟩]
  · rw [if_neg hc]
    have hc' : ¬(((validateCOF r.cof).toList ++ (validateLoad r.load).toList ++
        (validateFrictionForce r.friction_force).toList).any isErr = false ∧
        (r.validationStatus = some VStatus.verified ∨
         r.validationStatus = some VStatus.modified)) := by
      rw [← validateRecord_issues r]
      exact hc
    show (let issues := (validateCOF r.cof).toList ++ (validateLoad r.load).toList ++
        (validateFrictionForce r.friction_force).toList
      if (!issues.any isErr) = true ∧ (r.validationStatus = some VStatus.verified ∨
          r.validationStatus = some VStatus.modified) then
        r.validationStatus.getD VStatus.unverified
      else if (issues.any isErr || issues.any isWarn) = true then VStatus.warning
      else r.validationStatus.getD VStatus.unverified) = VStatus.warning
    rw [if_neg ?_, if_pos hor]
    intro hcond
    refine hc' ⟨?_, hcond.2⟩
    have hb := hcond.1
    revert hb
    cases ((validateCOF r.cof).toList ++ (validateLoad r.load).toList ++
      (validateFrictionForce r.friction_force).toList).any isErr <;> simp

/-- Witness for the C2 status rule at a concrete verified record with a
non-empty issue list. -/
theorem C2_amended_status_rule_witness :
    (validateRecord ⟨some ("r1").data, some ("2.0").data, none, none,
        some VStatus.verified, none⟩).status =
      if (validateRecord ⟨some ("r1").data, some ("2.0").data, none, none,
            some VStatus.verified, none⟩).issues.any isErr = false ∧
          ((⟨some ("r1").data, some ("2.0").data, none, none,
              some VStatus.verified, none⟩ : TribologyData).validationStatus =
              some VStatus.verified ∨
           (⟨some ("r1").data, some ("2.0").data, none, none,
              some VStatus.verified, none⟩ : TribologyData).validationStatus =
              some VStatus.modified) then
        (⟨some ("r1").data, some ("2.0").data, none, none,
            some VStatus.verified, none⟩ : TribologyData).validationStatus.getD
          VStatus.unverified
      else VStatus.warning :=
  C2_amended_status_rule.1 _ (by decide)

/-! ### Claim about `validateBatch` (C10) -/

theorem mapLookup_nil (k : Str) : mapLookup k [] = none := rfl

theorem mapLookup_cons (k k2 : Str) (v2 : ValidationResult)
    (rest : List (Str × ValidationResult)) :
    mapLookup k ((k2, v2) :: rest) = if k2 = k then some v2 else mapLookup k rest := rfl

theorem mapSet_nil (k : Str) (v : ValidationResult) : mapSet k v [] = [(k, v)] := rfl

theorem mapSet_cons (k : Str) (v : ValidationResult) (k2 : Str) (v2 : ValidationResult)
    (rest : List (Str × ValidationResult)) :
    mapSet k v ((k2, v2) :: rest) =
      if k2 = k then (k2, v) :: rest else (k2, v2) :: mapSet k v rest := rfl

theorem mapLookup_mapSet (k k' : Str) (v : ValidationResult)
    (m : List (Str × ValidationResult)) :
    mapLookup k (mapSet k' v m) = if k' = k then some v else mapLookup k m := by
  induction m with
  | nil =>
    rw [mapSet_nil, mapLookup_cons, mapLookup_nil]
  | cons kv rest ih =>
    obtain ⟨k2, v2⟩ := kv
    rw [mapSet_cons]
    by_cases h2 : k2 = k'
    · rw [if_pos h2]
      subst h2
      rw [mapLookup_cons, mapLookup_cons]
      by_cases hk : k2 = k
      · rw [if_pos hk, if_pos hk]
      · rw [if_neg hk, if_neg hk, if_neg hk]
    · rw [if_neg h2, mapLookup_cons, mapLookup_cons]
      by_cases hk : k2 = k
      · rw [if_pos hk, if_pos hk,
          if_neg (show ¬k' = k from fun hkk => h2 (hk.trans hkk.symm))]
      · rw [if_neg hk, if_neg hk, ih]

theorem mem_mapSet {kv : Str × ValidationResult} {k : Str} {v : ValidationResult}
    {m : List (Str × ValidationResult)} (h : kv ∈ mapSet k v m) :
    kv.1 = k ∨ ∃ kv' ∈ m, kv.1 = kv'.1 := by
  induction m with
  | nil =>
    rw [mapSet_nil] at h
    exact Or.inl (by rw [List.mem_singleton.mp h])
  | cons kv2 rest ih =>
    obtain ⟨k2, v2⟩ := kv2
    rw [mapSet_cons] at h
    by_cases h2 : k2 = k
    · rw [if_pos h2] at h
      rcases List.mem_cons.mp h with h | h
      · exact Or.inl (by rw [h, h2])
      · exact Or.inr ⟨kv, List.mem_cons_of_mem _ h, rfl⟩
    · rw [if_neg h2] at h
      rcases List.mem_cons.mp h with h | h
      · exact Or.inr ⟨(k2, v2), List.mem_cons_self _ _, by rw [h]⟩
      · rcases ih h with h | ⟨kv', hkv', he⟩
        · exact Or.inl h
        · exact Or.inr ⟨kv', List.mem_cons_of_mem _ hkv', he⟩

theorem batch_keys_ne_nil :
    ∀ (rs : List TribologyData) (m : List (Str × ValidationResult)),
      (∀ kv ∈ m, kv.1 ≠ ([] : Str)) →
      ∀ kv ∈ rs.foldl batchStep m, kv.1 ≠ ([] : Str) := by
  intro rs
  induction rs with
  | nil => intro m hm; exact hm
  | cons r rs ih =>
    intro m hm
    rw [List.foldl_cons]
    apply ih
    intro kv hkv
    unfold batchStep at hkv
    split at hkv
    · rename_i s hs
      split at hkv
      · exact hm kv hkv
      · rename_i hsne
        rcases mem_mapSet hkv with h | ⟨kv', hkv', he⟩
        · rw [h]; exact hsne
        · rw [he]; exact hm kv' hkv'
    · exact hm kv hkv

theorem mapLookup_nil_key {m : List (Str × ValidationResult)}
    (hm : ∀ kv ∈ m, kv.1 ≠ ([] : Str)) : mapLookup [] m = none := by
  induction m with
  | nil => rfl
  | cons kv rest ih =>
    obtain ⟨k2, v2⟩ := kv
    have hk2 : k2 ≠ [] := hm (k2, v2) (List.mem_cons_self _ _)
    rw [mapLookup_cons, if_neg fun h => hk2 h]
    exact ih fun kv h => hm kv (List.mem_cons_of_mem _ h)

theorem find_singleton (p : TribologyData → Bool) (a : TribologyData) :
    List.find? p [a] = if p a then some a else none := by
  by_cases hpa : p a = true
  · rw [if_pos hpa]
    exact List.find?_cons_of_pos _ hpa
  · rw [if_neg hpa, List.find?_cons_of_neg _ hpa]
    rfl

theorem batchStep_id_none {m : List (Str × ValidationResult)} {r : TribologyData}
    (h : r.id = none) : batchStep m r = m := by
  unfold batchStep
  rw [h]

theorem batchStep_id_nil {m : List (Str × ValidationResult)} {r : TribologyData}
    (h : r.id = some []) : batchStep m r = m := by
  unfold batchStep
  rw [h]
  exact if_pos rfl

theorem batchStep_id_some {m : List (Str × ValidationResult)} {r : TribologyData}
    {s : Str} (h : r.id = some s) (hs : s ≠ []) :
    batchStep m r = mapSet s (validateRecord r) m := by
  unfold batchStep
  rw [h]
  exact if_neg hs

theorem batch_foldl_lookup :
    ∀ (rs : List TribologyData) (m : List (Str × ValidationResult)) (k : Str),
      k ≠ [] →
      mapLookup k (rs.foldl batchStep m) =
        (rs.reverse.find? fun r => decide (r.id = some k)).elim
          (mapLookup k m) (fun r => some (validateRecord r)) := by
  intro rs
  induction rs with
  | nil => intro m k _; rfl
  | cons r rs ih =>
    intro m k hk
    rw [List.foldl_cons, List.reverse_cons, List.find?_append, ih _ k hk]
    cases hfind : rs.reverse.find? fun r => decide (r.id = some k) with
    | some x => rfl
    | none =>
      show mapLookup k (batchStep m r) =
        ((List.find? (fun r => decide (r.id = some k)) [r]).elim
          (mapLookup k m) fun r => some (validateRecord r))
      rw [find_singleton]
      cases hid : r.id with
      | none =>
        rw [batchStep_id_none hid, if_neg (by simp)]
        rfl
      | some s =>
        by_cases hs : s = []
        · subst hs
          have hcond : ¬decide ((some ([] : Str) : Option Str) = some k) = true := by
            simp only [decide_eq_true_eq, Option.some.injEq]
            intro hcon
            exact hk hcon.symm
          rw [batchStep_id_nil hid, if_neg hcond]
          rfl
        · rw [batchStep_id_some hid hs, mapLookup_mapSet]
          by_cases hsk : s = k
          · subst hsk
            rw [if_pos rfl, if_pos (by simp)]
            rfl
          · have hcond : ¬decide ((some s : Option Str) = some k) = true := by
              simp only [decide_eq_true_eq, Option.some.injEq]
              exact hsk
            rw [if_neg hsk, if_neg hcond]
            rfl

/-- C10: looking a key up in the `validateBatch` result finds exactly the
validation result of the last input record carrying that id as a truthy
string: empty-id and missing-id records are omitted, and a later record with
the same id overwrites an earlier one. -/
theorem C10_validateBatch_lookup (rs : List TribologyData) (k : Str) :
    mapLookup k (validateBatch rs) =
      if k = [] then none
      else (rs.reverse.find? fun r => decide (r.id = some k)).map validateRecord := by
  by_cases hk : k = []
  · subst hk
    rw [if_pos rfl]
    exact mapLookup_nil_key
      (batch_keys_ne_nil rs [] (fun kv h => absurd h (List.not_mem_nil kv)))
  · rw [if_neg hk]
    unfold validateBatch
    rw [batch_foldl_lookup rs [] k hk]
    cases rs.reverse.find? fun r => decide (r.id = some k) with
    | none => rfl
    | some x => rfl

/-! ### Claim about `convertToNewtons` (C5) -/

theorem unit_not_ws {c : Char} (h : isUnitCh c = true) : isWsCh c = false := by
  rw [Bool.eq_false_iff]
  intro hw
  simp [isUnitCh] at h
  simp [isWsCh] at hw
  omega

theorem unit_not_num {c : Char} (h : isUnitCh c = true) : isNumCh c = false := by
  rw [Bool.eq_false_iff]
  intro hw
  simp [isUnitCh] at h
  simp [isNumCh, isDigitCh] at hw
  omega

theorem ws_not_num {c : Char} (h : isWsCh c = true) : isNumCh c = false := by
  rw [Bool.eq_false_iff]
  intro hw
  simp [isWsCh] at h
  simp [isNumCh, isDigitCh] at hw
  omega

theorem scanUnit_template {ds u : Str} (hds : ds ≠ [])
    (hnum : ∀ c ∈ ds, isNumCh c = true) (hu : u ≠ [])
    (hunit : ∀ c ∈ u, isUnitCh c = true) :
    scanUnit (ds ++ ' ' :: u) = some (ds, u) := by
  have hdrop : (ds ++ ' ' :: u).dropWhile isNumCh = ' ' :: u := by
    rw [dropWhile_append_all hnum]
    exact dropWhile_self_of_all fun c hc => by
      rcases List.mem_cons.mp hc with h | h
      · rw [h]; decide
      · exact unit_not_num (hunit c h)
  have hdropws : (' ' :: u).dropWhile isWsCh = u := by
    rw [List.dropWhile_cons, if_pos (by decide)]
    exact dropWhile_self_of_all fun c hc => unit_not_ws (hunit c hc)
  have htake : (ds ++ ' ' :: u).takeWhile isNumCh = ds := by
    rw [takeWhile_append_all hnum, List.takeWhile_cons, if_neg (by decide)]
    exact List.append_nil ds
  have hht : headTest (ds ++ ' ' :: u) = true := by
    cases ds with
    | nil => exact absurd rfl hds
    | cons c cs =>
      unfold headTest
      rw [List.cons_append]
      show (isNumCh c && _) = true
      rw [hnum c (List.mem_cons_self c cs), Bool.true_and]
      rw [← List.cons_append, hdrop, hdropws]
      cases u with
      | nil => exact absurd rfl hu
      | cons u0 us =>
        show (match (u0 :: us).head? with
          | some d => isUnitCh d
          | none => false) = true
        rw [List.head?_cons]
        exact hunit u0 (List.mem_cons_self u0 us)
  cases ds with
  | nil => exact absurd rfl hds
  | cons c cs =>
    rw [List.cons_append]
    unfold scanUnit
    rw [← List.cons_append, hht]
    rw [if_pos rfl, htake, hdrop, hdropws]
    rw [takeWhile_all hunit]

theorem parseUnitValue_template {ds u : Str} {v : ℚ} (hds : ds ≠ [])
    (hnum : ∀ c ∈ ds, isNumCh c = true) (hu : u ≠ [])
    (hunit : ∀ c ∈ u, isUnitCh c = true) (hv : parseFloatQ ds = some v) :
    parseUnitValue (some (ds ++ ' ' :: u)) = some ⟨v, u⟩ := by
  have hf : jsFalsy (some (ds ++ ' ' :: u)) = false := by
    cases ds with
    | nil => exact absurd rfl hds
    | cons c cs => rfl
  unfold parseUnitValue
  rw [hf]
  rw [if_neg (by simp)]
  show (match scanUnit (ds ++ ' ' :: u) with
    | none => none
    | some (numPart, unitPart) =>
      match parseFloatQ numPart with
      | none => none
      | some w => some (UnitValue.mk w unitPart)) = some (UnitValue.mk v u)
  rw [scanUnit_template hds hnum hu hunit]
  show (match parseFloatQ ds with
    | none => none
    | some w => some (UnitValue.mk w u)) = some (UnitValue.mk v u)
  rw [hv]

theorem convertToNewtons_of_parse {s : Option Str} {uv : UnitValue}
    (h : parseUnitValue s = some uv) :
    convertToNewtons s =
      match convFactor uv.unit with
      | none => none
      | some factor => some (uv.value * factor) := by
  unfold convertToNewtons
  rw [h]

theorem convFactor_mem {u : Str} {f : ℚ} (h : convFactor u = some f) :
    (u, f) ∈ specUnitTable := by
  unfold convFactor at h
  split_ifs at h with h1 h2 h3 h4 h5 <;>
    first
    | (injection h with h'
       subst h'
       first
       | (subst h1; exact List.mem_cons_self _ _)
       | (subst h2; exact List.mem_cons_of_mem _ (List.mem_cons_self _ _))
       | (subst h3
          exact List.mem_cons_of_mem _ (List.mem_cons_of_mem _ (List.mem_cons_self _ _)))
       | (subst h4
          exact List.mem_cons_of_mem _ (List.mem_cons_of_mem _
            (List.mem_cons_of_mem _ (List.mem_cons_self _ _))))
       | (subst h5
          exact List.mem_cons_of_mem _ (List.mem_cons_of_mem _ (List.mem_cons_of_mem _
            (List.mem_cons_of_mem _ (List.mem_cons_self _ _))))))

/-- C5: for every unit of the conversion table and every parsed value, the
string `"{v} {u}"` converts to `v * factor[u]`; value-less input and a parsed
unit outside the table convert to `null`. -/
theorem C5_convert_force_table :
    (∀ (ds u : Str) (f v : ℚ), ds ≠ [] → (∀ c ∈ ds, isNumCh c = true) →
       parseFloatQ ds = some v → (u, f) ∈ specUnitTable →
       convertToNewtons (some (ds ++ ' ' :: u)) = some (v * f)) ∧
    (∀ s, parseUnitValue s = none → convertToNewtons s = none) ∧
    (∀ s uv, parseUnitValue s = some uv → (∀ f, (uv.unit, f) ∉ specUnitTable) →
       convertToNewtons s = none) := by
  refine ⟨?_, ?_, ?_⟩
  · intro ds u f v hds hnum hv hmem
    simp only [specUnitTable, List.mem_cons, List.not_mem_nil, or_false,
      Prod.mk.injEq] at hmem
    rcases hmem with ⟨rfl, rfl⟩ | ⟨rfl, rfl⟩ | ⟨rfl, rfl⟩ | ⟨rfl, rfl⟩ | ⟨rfl, rfl⟩
    · rw [convertToNewtons_of_parse
        (parseUnitValue_template (u := ("N").data) hds hnum (by decide) (by decide) hv)]
      rfl
    · rw [convertToNewtons_of_parse
        (parseUnitValue_template (u := ("mN").data) hds hnum (by decide) (by decide) hv)]
      rfl
    · rw [convertToNewtons_of_parse
        (parseUnitValue_template (u := ("µN").data) hds hnum (by decide) (by decide) hv)]
      rfl
    · rw [convertToNewtons_of_parse
        (parseUnitValue_template (u := ("uN").data) hds hnum (by decide) (by decide) hv)]
      rfl
    · rw [convertToNewtons_of_parse
        (parseUnitValue_template (u := ("nN").data) hds hnum (by decide) (by decide) hv)]
      rfl
  · intro s h
    unfold convertToNewtons
    rw [h]
  · intro s uv h hnot
    unfold convertToNewtons
    rw [h]
    show (match convFactor uv.unit with
      | none => none
      | some factor => some (uv.value * factor)) = none
    cases hcf : convFactor uv.unit with
    | none => rfl
    | some f => exact absurd (convFactor_mem hcf) (hnot f)

/-- Witness for C5 at the concrete string `"5 mN"`. -/
theorem C5_convert_force_table_witness :
    convertToNewtons (some (("5").data ++ ' ' :: ("mN").data)) =
      some (5 * (1 / 1000)) := by
  have hn : ('5').toNat = 53 := rfl
  have h5 : parseFloatQ (("5").data) = some 5 := by
    show parseFloatQ ['5'] = some 5
    unfold parseFloatQ
    rw [show List.dropWhile isDigitCh ['5'] = [] from by decide,
      show List.takeWhile isDigitCh ['5'] = ['5'] from by decide]
    show (if (['5'] : Str).isEmpty then none else some (digitsToQ ['5'])) = some 5
    rw [if_neg (by decide)]
    unfold digitsToQ
    rw [List.foldl_cons, List.foldl_nil]
    norm_num [hn]
  exact C5_convert_force_table.1 (("5").data) (("mN").data) (1 / 1000) 5
    (by decide) (by decide) h5
    (List.mem_cons_of_mem _ (List.mem_cons_self _ _))

/-! ### Claim about `validateLoad` / `validateFrictionForce` (C6) -/

theorem parseUnitValue_some_falsy {s : Option Str} {uv : UnitValue}
    (h : parseUnitValue s = some uv) : jsFalsy s = false := by
  by_cases hf : jsFalsy s = true
  · unfold parseUnitValue at h
    rw [if_pos hf] at h
    cases h
  · exact Bool.eq_false_iff.mpr hf

theorem mem_convFactor {u : Str} {f : ℚ} (h : (u, f) ∈ specUnitTable) :
    convFactor u = some f := by
  simp only [specUnitTable, List.mem_cons, List.not_mem_nil, or_false,
    Prod.mk.injEq] at h
  rcases h with ⟨rfl, rfl⟩ | ⟨rfl, rfl⟩ | ⟨rfl, rfl⟩ | ⟨rfl, rfl⟩ | ⟨rfl, rfl⟩ <;> rfl

/-- Counterexample to C6: `validateFrictionForce` performs no
conversion-table check, so `"5 XYZ"` — which the claim says must yield an
"unsupported unit" warning for the friction-force field — yields no issue. -/
theorem C6_counterexample :
    validateFrictionForce (some (("5 XYZ").data)) = none := by decide

/-- C6 (amended): for the load field the claim holds as stated (absent → no
issue, unparsable → unit-required warning, parsed-but-unknown unit →
"unsupported unit" warning, table unit → no issue); for the friction-force
field an absent value yields no issue and an unparsable one the unit-required
warning, but every successfully parsed value yields no issue, whether or not
its unit is in the conversion table. -/
theorem C6_load_force_unit_checks :
    (∀ s : Option Str, jsFalsy s = true →
       validateLoad s = none ∧ validateFrictionForce s = none) ∧
    (∀ s : Option Str, jsFalsy s = false → parseUnitValue s = none →
       validateLoad s = some ⟨fieldLoad, msgLoadUnit, Severity.warning⟩ ∧
       validateFrictionForce s = some ⟨fieldFF, msgForceUnit, Severity.warning⟩) ∧
    (∀ (s : Option Str) (uv : UnitValue), parseUnitValue s = some uv →
       validateFrictionForce s = none ∧
       ((∀ f, (uv.unit, f) ∉ specUnitTable) →
          validateLoad s = some ⟨fieldLoad, msgLoadUnsupported, Severity.warning⟩) ∧
       (∀ f, (uv.unit, f) ∈ specUnitTable → validateLoad s = none)) := by
  refine ⟨?_, ?_, ?_⟩
  · intro s h
    constructor
    · unfold validateLoad
      rw [h]
      simp
    · unfold validateFrictionForce
      rw [h]
      simp
  · intro s hf hp
    constructor
    · unfold validateLoad
      rw [hf, if_neg (by simp), hp]
    · unfold validateFrictionForce
      rw [hf, if_neg (by simp), hp]
  · intro s uv hp
    have hf := parseUnitValue_some_falsy hp
    refine ⟨?_, ?_, ?_⟩
    · unfold validateFrictionForce
      rw [hf, if_neg (by simp), hp]
    · intro hnot
      have hcf : convFactor uv.unit = none := by
        cases hcf : convFactor uv.unit with
        | none => rfl
        | some f => exact absurd (convFactor_mem hcf) (hnot f)
      have hcn : convertToNewtons s = none := by
        unfold convertToNewtons
        rw [hp]
        show (match convFactor uv.unit with
          | none => none
          | some factor => some (uv.value * factor)) = none
        rw [hcf]
      unfold validateLoad
      rw [hf, if_neg (by simp), hp]
      show (match convertToNewtons s with
        | none => some (ValidationIssue.mk fieldLoad msgLoadUnsupported Severity.warning)
        | some _ => none) =
        some (ValidationIssue.mk fieldLoad msgLoadUnsupported Severity.warning)
      rw [hcn]
    · intro f hmem
      have hcf : convFactor uv.unit = some f := mem_convFactor hmem
      have hcn : convertToNewtons s = some (uv.value * f) := by
        unfold convertToNewtons
        rw [hp]
        show (match convFactor uv.unit with
          | none => none
          | some factor => some (uv.value * factor)) = some (uv.value * f)
        rw [hcf]
      unfold validateLoad
      rw [hf, if_neg (by simp), hp]
      show (match convertToNewtons s with
        | none => some (ValidationIssue.mk fieldLoad msgLoadUnsupported Severity.warning)
        | some _ => none) = none
      rw [hcn]

/-- Witness for C6 at `"5 XYZ"` (parses, unit outside the table) and `"5"`
(no unit). -/
theorem C6_load_force_unit_checks_witness :
    validateLoad (some (("5 XYZ").data)) =
      some ⟨fieldLoad, msgLoadUnsupported, Severity.warning⟩ ∧
    validateFrictionForce (some (("5 XYZ").data)) = none ∧
    validateLoad (some (("5").data)) =
      some ⟨fieldLoad, msgLoadUnit, Severity.warning⟩ := by
  have hp : parseUnitValue (some (("5 XYZ").data)) =
      some (UnitValue.mk (digitsToQ (("5").data)) (("XYZ").data)) := rfl
  have hnot : ∀ f : ℚ,
      ((UnitValue.mk (digitsToQ (("5").data)) (("XYZ").data)).unit, f) ∉ specUnitTable := by
    intro f hf
    simp only [specUnitTable, List.mem_cons, List.not_mem_nil, or_false,
      Prod.mk.injEq] at hf
    rcases hf with ⟨h1, _⟩ | ⟨h1, _⟩ | ⟨h1, _⟩ | ⟨h1, _⟩ | ⟨h1, _⟩ <;>
      exact absurd h1 (by decide)
  refine ⟨(C6_load_force_unit_checks.2.2 _ _ hp).2.1 hnot,
    (C6_load_force_unit_checks.2.2 _ _ hp).1,
    (C6_load_force_unit_checks.2.1 _ (by decide) (by decide)).1⟩

/-! ### Claim about `parseUnitValue` (C4) -/

theorem head_append_ne {u b : Str} (h : u ≠ []) : (u ++ b).head? = u.head? := by
  cases u with
  | nil => exact absurd rfl h
  | cons u0 us => rfl

theorem wub_head_not_num {w u b : Str} (hw : ∀ c ∈ w, isWsCh c = true)
    (hu : u ≠ []) (hunit : ∀ c ∈ u, isUnitCh c = true) :
    ∀ c, (w ++ (u ++ b)).head? = some c → isNumCh c = false := by
  intro c hc
  cases w with
  | nil =>
    rw [List.nil_append, head_append_ne hu] at hc
    cases u with
    | nil => exact absurd rfl hu
    | cons u0 us =>
      rw [List.head?_cons, Option.some.injEq] at hc
      exact hc ▸ unit_not_num (hunit u0 (List.mem_cons_self u0 us))
  | cons w0 ws' =>
    rw [List.cons_append, List.head?_cons, Option.some.injEq] at hc
    exact hc ▸ ws_not_num (hw w0 (List.mem_cons_self w0 ws'))

theorem ub_head_not_ws {u b : Str} (hu : u ≠ [])
    (hunit : ∀ c ∈ u, isUnitCh c = true) :
    ∀ c, (u ++ b).head? = some c → isWsCh c = false := by
  intro c hc
  rw [head_append_ne hu] at hc
  cases u with
  | nil => exact absurd rfl hu
  | cons u0 us =>
    rw [List.head?_cons, Option.some.injEq] at hc
    exact hc ▸ unit_not_ws (hunit u0 (List.mem_cons_self u0 us))

theorem scanUnit_pos {s : Str} (h : headTest s = true) :
    scanUnit s = some (s.takeWhile isNumCh,
      ((s.dropWhile isNumCh).dropWhile isWsCh).takeWhile isUnitCh) := by
  cases s with
  | nil => cases h
  | cons c cs =>
    show (if headTest (c :: cs) then _ else _) = _
    rw [if_pos h]

theorem scanUnit_neg {c : Char} {cs : Str} (h : headTest (c :: cs) = false) :
    scanUnit (c :: cs) = scanUnit cs := by
  show (if headTest (c :: cs) then _ else _) = _
  rw [if_neg (by rw [h]; exact Bool.false_ne_true)]

theorem headTest_decomp {c : Char} {cs : Str} (h : headTest (c :: cs) = true) :
    isNumCh c = true ∧
    ∃ d0, (((c :: cs).dropWhile isNumCh).dropWhile isWsCh).head? = some d0 ∧
      isUnitCh d0 = true := by
  unfold headTest at h
  rw [Bool.and_eq_true] at h
  refine ⟨h.1, ?_⟩
  have h2 := h.2
  revert h2
  cases hh : (((c :: cs).dropWhile isNumCh).dropWhile isWsCh).head? with
  | none => intro hfalse; cases hfalse
  | some d0 => intro htrue; exact ⟨d0, rfl, htrue⟩

theorem takeWhile_decomp (s : Str) :
    s = s.takeWhile isNumCh ++ ((s.dropWhile isNumCh).takeWhile isWsCh ++
      (((s.dropWhile isNumCh).dropWhile isWsCh).takeWhile isUnitCh ++
        ((s.dropWhile isNumCh).dropWhile isWsCh).dropWhile isUnitCh)) := by
  rw [List.takeWhile_append_dropWhile, List.takeWhile_append_dropWhile,
    List.takeWhile_append_dropWhile]

theorem headTest_iff (t : Str) : headTest t = true ↔ MatchAt t := by
  constructor
  · intro h
    cases t with
    | nil => cases h
    | cons c cs =>
      obtain ⟨hn, d0, hd0, hd0u⟩ := headTest_decomp h
      refine ⟨(c :: cs).takeWhile isNumCh,
        ((c :: cs).dropWhile isNumCh).takeWhile isWsCh,
        (((c :: cs).dropWhile isNumCh).dropWhile isWsCh).takeWhile isUnitCh,
        (((c :: cs).dropWhile isNumCh).dropWhile isWsCh).dropWhile isUnitCh,
        takeWhile_decomp (c :: cs), ?_, ?_, ?_, ?_, ?_⟩
      · rw [List.takeWhile_cons, if_pos hn]
        exact List.cons_ne_nil c _
      · exact fun x hx => List.mem_takeWhile_imp hx
      · exact fun x hx => List.mem_takeWhile_imp hx
      · cases hr2 : ((c :: cs).dropWhile isNumCh).dropWhile isWsCh with
        | nil => rw [hr2] at hd0; cases hd0
        | cons r0 rs0 =>
          rw [hr2] at hd0
          rw [List.head?_cons, Option.some.injEq] at hd0
          rw [List.takeWhile_cons, if_pos (show isUnitCh r0 = true from by rw [hd0]; exact hd0u)]
          exact List.cons_ne_nil r0 _
      · exact fun x hx => List.mem_takeWhile_imp hx
  · rintro ⟨d, w, u, b, ht, hd, hnum, hw, hu, hunit⟩
    have hdrop1 : t.dropWhile isNumCh = w ++ (u ++ b) := by
      rw [ht, dropWhile_append_all hnum]
      exact dropWhile_self_of_head (wub_head_not_num hw hu hunit)
    have hdrop2 : (t.dropWhile isNumCh).dropWhile isWsCh = u ++ b := by
      rw [hdrop1, dropWhile_append_all hw]
      exact dropWhile_self_of_head (ub_head_not_ws hu hunit)
    obtain ⟨d0, ds, hdl⟩ : ∃ d0 ds, d = d0 :: ds := by
      cases d with
      | nil => exact absurd rfl hd
      | cons d0 ds => exact ⟨d0, ds, rfl⟩
    have ht' : t = d0 :: (ds ++ (w ++ (u ++ b))) := by
      rw [ht, hdl, List.cons_append]
    have hd0n : isNumCh d0 = true := hnum d0 (hdl ▸ List.mem_cons_self d0 ds)
    obtain ⟨u0, us, hul⟩ : ∃ u0 us, u = u0 :: us := by
      cases u with
      | nil => exact absurd rfl hu
      | cons u0 us => exact ⟨u0, us, rfl⟩
    have hu0 : isUnitCh u0 = true := hunit u0 (hul ▸ List.mem_cons_self u0 us)
    have hhead : ((t.dropWhile isNumCh).dropWhile isWsCh).head? = some u0 := by
      rw [hdrop2, hul, List.cons_append, List.head?_cons]
    rw [ht']
    unfold headTest
    rw [Bool.and_eq_true]
    refine ⟨hd0n, ?_⟩
    rw [← ht', hhead]
    exact hu0

theorem scanUnit_eq_none_iff (s : Str) :
    scanUnit s = none ↔ ∀ t, List.IsSuffix t s → headTest t = false := by
  induction s with
  | nil =>
    constructor
    · intro _ t ht
      rw [List.suffix_nil.mp ht]
      rfl
    · intro _
      rfl
  | cons c cs ih =>
    by_cases hh : headTest (c :: cs) = true
    · constructor
      · intro hsc
        rw [scanUnit_pos hh] at hsc
        cases hsc
      · intro hall
        rw [hall (c :: cs) (List.suffix_refl _)] at hh
        cases hh
    · have hhf : headTest (c :: cs) = false := Bool.eq_false_iff.mpr hh
      rw [scanUnit_neg hhf, ih]
      constructor
      · intro hall t ht
        rcases List.suffix_cons_iff.mp ht with h | h
        · rw [h]
          exact hhf
        · exact hall t h
      · intro hall t ht
        exact hall t (ht.trans (List.suffix_cons c cs))

theorem scanUnit_some_first {s d u : Str} (h : scanUnit s = some (d, u)) :
    ∃ a w b, FirstMatch s a d w u b := by
  induction s with
  | nil => cases h
  | cons c cs ih =>
    by_cases hh : headTest (c :: cs) = true
    · rw [scanUnit_pos hh] at h
      injection h with h'
      injection h' with h1 h2
      subst h1
      subst h2
      obtain ⟨hn, d0, hd0, hd0u⟩ := headTest_decomp hh
      refine ⟨[], ((c :: cs).dropWhile isNumCh).takeWhile isWsCh,
        (((c :: cs).dropWhile isNumCh).dropWhile isWsCh).dropWhile isUnitCh,
        ?_, ?_, ?_, ?_, ?_, ?_, ?_, ?_⟩
      · rw [List.nil_append]
        exact takeWhile_decomp (c :: cs)
      · rw [List.takeWhile_cons, if_pos hn]
        exact List.cons_ne_nil c _
      · exact fun x hx => List.mem_takeWhile_imp hx
      · exact fun x hx => List.mem_takeWhile_imp hx
      · cases hr2 : ((c :: cs).dropWhile isNumCh).dropWhile isWsCh with
        | nil => rw [hr2] at hd0; cases hd0
        | cons r0 rs0 =>
          rw [hr2] at hd0
          rw [List.head?_cons, Option.some.injEq] at hd0
          rw [List.takeWhile_cons, if_pos (show isUnitCh r0 = true from by rw [hd0]; exact hd0u)]
          exact List.cons_ne_nil r0 _
      · exact fun x hx => List.mem_takeWhile_imp hx
      · exact fun x hx => dropWhile_head_not hx
      · intro t hts hlen
        rw [← takeWhile_decomp (c :: cs)] at hlen
        have := hts.length_le
        omega
    · have hhf : headTest (c :: cs) = false := Bool.eq_false_iff.mpr hh
      rw [scanUnit_neg hhf] at h
      obtain ⟨a, w, b, hfm⟩ := ih h
      obtain ⟨ht, hd, hnum, hw, hu, hunit, hb, hleft⟩ := hfm
      refine ⟨c :: a, w, b, ?_, hd, hnum, hw, hu, hunit, hb, ?_⟩
      · rw [List.cons_append, ht]
      · intro t hts hlen
        rcases List.suffix_cons_iff.mp hts with hteq | hts'
        · rw [hteq]
          intro hm
          rw [(headTest_iff (c :: cs)).mpr hm] at hhf
          cases hhf
        · exact hleft t hts' hlen

theorem firstMatch_scanUnit :
    ∀ {a s d w u b : Str}, FirstMatch s a d w u b → scanUnit s = some (d, u) := by
  intro a
  induction a with
  | nil =>
    intro s d w u b hfm
    obtain ⟨ht, hd, hnum, hw, hu, hunit, hb, _⟩ := hfm
    rw [List.nil_append] at ht
    have hmatch : MatchAt s := ⟨d, w, u, b, ht, hd, hnum, hw, hu, hunit⟩
    have hh : headTest s = true := (headTest_iff s).mpr hmatch
    have htake : s.takeWhile isNumCh = d := by
      rw [ht, takeWhile_append_all hnum,
        takeWhile_nil_of_head (wub_head_not_num hw hu hunit), List.append_nil]
    have hdrop1 : s.dropWhile isNumCh = w ++ (u ++ b) := by
      rw [ht, dropWhile_append_all hnum]
      exact dropWhile_self_of_head (wub_head_not_num hw hu hunit)
    have hdrop2 : (s.dropWhile isNumCh).dropWhile isWsCh = u ++ b := by
      rw [hdrop1, dropWhile_append_all hw]
      exact dropWhile_self_of_head (ub_head_not_ws hu hunit)
    have htakeu : (u ++ b).takeWhile isUnitCh = u := by
      rw [takeWhile_append_all hunit, takeWhile_nil_of_head hb, List.append_nil]
    rw [scanUnit_pos hh, htake, hdrop2, htakeu]
  | cons c a' ih =>
    intro s d w u b hfm
    obtain ⟨ht, hd, hnum, hw, hu, hunit, hb, hleft⟩ := hfm
    have hlen : (d ++ (w ++ (u ++ b))).length < s.length := by
      rw [ht]
      simp only [List.cons_append, List.length_cons, List.length_append]
      omega
    have hnm : ¬ MatchAt s := hleft s (List.suffix_refl s) hlen
    have hhf : headTest s = false := by
      rw [Bool.eq_false_iff]
      intro hcon
      exact hnm ((headTest_iff s).mp hcon)
    have ht' : s = c :: (a' ++ (d ++ (w ++ (u ++ b)))) := by
      rw [ht, List.cons_append]
    have hfm' : FirstMatch (a' ++ (d ++ (w ++ (u ++ b)))) a' d w u b := by
      refine ⟨rfl, hd, hnum, hw, hu, hunit, hb, ?_⟩
      intro t hts htl
      refine hleft t ?_ htl
      rw [ht']
      exact hts.trans (List.suffix_cons c _)
    rw [ht', scanUnit_neg (ht' ▸ hhf)]
    exact ih hfm'


theorem parseUnitValue_cons (c : Char) (cs : Str) :
    parseUnitValue (some (c :: cs)) =
      match scanUnit (c :: cs) with
      | none => none
      | some (numPart, unitPart) =>
        match parseFloatQ numPart with
        | none => none
        | some v => some (UnitValue.mk v unitPart) := by
  unfold parseUnitValue
  rw [show jsFalsy (some (c :: cs)) = false from rfl]
  rw [if_neg (by simp)]

theorem matchAt_nil : ¬ MatchAt ([] : Str) := by
  rintro ⟨d, w, u, b, ht, hd, _⟩
  obtain ⟨hd', _⟩ := List.append_eq_nil.mp ht.symm
  exact hd hd'

/-- Counterexample to C4: the regex `([\d.]+)\s*([a-zA-Zµ]+)` requires a
unit-letter run after the number, so the bare number `"5"` — which the claim
says parses to a value — yields `null`. -/
theorem C4_counterexample : parseUnitValue (some (("5").data)) = none := by decide

/-- C4 (amended): `parseUnitValue` returns `null` exactly when the input is
undefined/empty, contains no digit/dot run followed (after optional
whitespace) by a letter run, or the numeric part of the leftmost such match
does not parse as a finite number; otherwise it returns the numeric run of
that leftmost match as the value together with the immediately following
letter run (micro sign included) as the unit.  A bare number with no letters
after it, such as `"5"`, therefore returns `null`. -/
theorem C4_parseUnitValue_characterization (s : Str) :
    (parseUnitValue (some s) = none ↔
       (∀ t, List.IsSuffix t s → ¬ MatchAt t) ∨
       ∃ a d w u b, FirstMatch s a d w u b ∧ parseFloatQ d = none) ∧
    (∀ (v : ℚ) (un : Str), parseUnitValue (some s) = some ⟨v, un⟩ ↔
       ∃ a d w b, FirstMatch s a d w un b ∧ parseFloatQ d = some v) := by
  cases s with
  | nil =>
    constructor
    · refine ⟨fun _ => Or.inl fun t ht => ?_, fun _ => rfl⟩
      rw [List.suffix_nil.mp ht]
      exact matchAt_nil
    · intro v un
      constructor
      · intro h
        exact Option.noConfusion h
      · rintro ⟨a, d, w, b, ⟨ht, hd, _⟩, _⟩
        obtain ⟨_, hrest⟩ := List.append_eq_nil.mp ht.symm
        obtain ⟨hd', _⟩ := List.append_eq_nil.mp hrest
        exact absurd hd' hd
  | cons c cs =>
    have hpc := parseUnitValue_cons c cs
    constructor
    · constructor
      · intro h
        rw [hpc] at h
        cases hsc : scanUnit (c :: cs) with
        | none =>
          refine Or.inl fun t ht hm => ?_
          have hf := (scanUnit_eq_none_iff (c :: cs)).mp hsc t ht
          rw [(headTest_iff t).mpr hm] at hf
          cases hf
        | some du =>
          obtain ⟨d', u'⟩ := du
          rw [hsc] at h
          have h' : (match parseFloatQ d' with
            | none => none
            | some w => some (UnitValue.mk w u')) = none := h
          cases hpf : parseFloatQ d' with
          | some v =>
            rw [hpf] at h'
            exact Option.noConfusion h'
          | none =>
            obtain ⟨a, w, b, hfm⟩ := scanUnit_some_first hsc
            exact Or.inr ⟨a, d', w, u', b, hfm, hpf⟩
      · intro h
        rcases h with h | ⟨a, d, w, u, b, hfm, hpf⟩
        · have hsc : scanUnit (c :: cs) = none := by
            rw [scanUnit_eq_none_iff]
            intro t ht
            rw [Bool.eq_false_iff]
            intro hcon
            exact h t ht ((headTest_iff t).mp hcon)
          rw [hpc, hsc]
        · have hsc := firstMatch_scanUnit hfm
          rw [hpc, hsc]
          show (match parseFloatQ d with
            | none => none
            | some w => some (UnitValue.mk w u)) = none
          rw [hpf]
    · intro v un
      constructor
      · intro h
        rw [hpc] at h
        cases hsc : scanUnit (c :: cs) with
        | none =>
          rw [hsc] at h
          exact Option.noConfusion h
        | some du =>
          obtain ⟨d', u'⟩ := du
          rw [hsc] at h
          have h' : (match parseFloatQ d' with
            | none => none
            | some w => some (UnitValue.mk w u')) = some (UnitValue.mk v un) := h
          cases hpf : parseFloatQ d' with
          | none =>
            rw [hpf] at h'
            exact Option.noConfusion h'
          | some v' =>
            rw [hpf] at h'
            injection h' with h''
            injection h'' with hv hu
            subst hv
            subst hu
            obtain ⟨a, w, b, hfm⟩ := scanUnit_some_first hsc
            exact ⟨a, d', w, b, hfm, hpf⟩
      · rintro ⟨a, d, w, b, hfm, hpf⟩
        have hsc := firstMatch_scanUnit hfm
        rw [hpc, hsc]
        show (match parseFloatQ d with
          | none => none
          | some w => some (UnitValue.mk w un)) = some (UnitValue.mk v un)
        rw [hpf]

/-! ### Claim about the term normalizer (C9) -/

theorem leadMatch_append {p t b : Str} (h : leadMatch p t = true) :
    leadMatch p (t ++ b) = true := by
  induction p generalizing t with
  | nil => rfl
  | cons pc ps ih =>
    cases t with
    | nil => cases h
    | cons tc ts =>
      rw [List.cons_append]
      unfold leadMatch at h ⊢
      rw [Bool.and_eq_true] at h ⊢
      exact ⟨h.1, ih h.2⟩

theorem findSub_nilpat (s : Str) : findSub [] s = true := by
  cases s with
  | nil => rfl
  | cons c cs => rfl

theorem findSub_append_right {p t b : Str} (h : findSub p t = true) :
    findSub p (t ++ b) = true := by
  induction t with
  | nil =>
    have hp : p = [] := by
      cases p with
      | nil => rfl
      | cons pc ps => cases h
    rw [hp, List.nil_append]
    exact findSub_nilpat b
  | cons c ts ih =>
    rw [List.cons_append]
    unfold findSub at h ⊢
    rw [Bool.or_eq_true] at h ⊢
    rcases h with h | h
    · refine Or.inl ?_
      have := leadMatch_append (b := b) h
      rwa [List.cons_append] at this
    · exact Or.inr (ih h)

theorem findSub_append_left {p a t : Str} (h : findSub p t = true) :
    findSub p (a ++ t) = true := by
  induction a with
  | nil => exact h
  | cons c as ih =>
    rw [List.cons_append]
    unfold findSub
    rw [Bool.or_eq_true]
    exact Or.inr ih

theorem findSub_embed {p a t b : Str} (h : findSub p t = true) :
    findSub p (a ++ (t ++ b)) = true :=
  findSub_append_left (findSub_append_right h)

theorem dropWhile_idem {p : Char → Bool} {l : Str} :
    (l.dropWhile p).dropWhile p = l.dropWhile p :=
  dropWhile_self_of_head fun _ hc => dropWhile_head_not hc

theorem trim_decomp (s : Str) :
    ∃ a b, s = a ++ (trimStr s ++ b) ∧ (∀ c ∈ a, isWsCh c = true) ∧
      (∀ c ∈ b, isWsCh c = true) := by
  refine ⟨s.takeWhile isWsCh, ((s.dropWhile isWsCh).reverse.takeWhile isWsCh).reverse,
    ?_, ?_, ?_⟩
  · conv_lhs => rw [← List.takeWhile_append_dropWhile (p := isWsCh) (l := s)]
    congr 1
    calc s.dropWhile isWsCh
        = (s.dropWhile isWsCh).reverse.reverse := (List.reverse_reverse _).symm
      _ = ((s.dropWhile isWsCh).reverse.takeWhile isWsCh ++
            (s.dropWhile isWsCh).reverse.dropWhile isWsCh).reverse := by
            rw [List.takeWhile_append_dropWhile]
      _ = ((s.dropWhile isWsCh).reverse.dropWhile isWsCh).reverse ++
            ((s.dropWhile isWsCh).reverse.takeWhile isWsCh).reverse :=
            List.reverse_append _ _
      _ = trimStr s ++ ((s.dropWhile isWsCh).reverse.takeWhile isWsCh).reverse := rfl
  · exact fun c hc => List.mem_takeWhile_imp hc
  · exact fun c hc => List.mem_takeWhile_imp (List.mem_reverse.mp hc)

theorem trim_head_not_ws {s : Str} :
    ∀ c, (trimStr s).head? = some c → isWsCh c = false := by
  intro c hc
  unfold trimStr at hc
  rw [List.head?_reverse] at hc
  obtain ⟨pre, hpre⟩ :=
    List.dropWhile_suffix (l := (s.dropWhile isWsCh).reverse) (p := isWsCh)
  have hne : (s.dropWhile isWsCh).reverse.dropWhile isWsCh ≠ [] := by
    intro hcon
    rw [hcon] at hc
    cases hc
  have hlast : (s.dropWhile isWsCh).reverse.getLast? = some c := by
    rw [← hpre, List.getLast?_append_of_ne_nil _ hne]
    exact hc
  rw [List.getLast?_reverse] at hlast
  exact dropWhile_head_not hlast

theorem trim_idem (s : Str) : trimStr (trimStr s) = trimStr s := by
  have h1 : (trimStr s).dropWhile isWsCh = trimStr s :=
    dropWhile_self_of_head trim_head_not_ws
  show (((trimStr s).dropWhile isWsCh).reverse.dropWhile isWsCh).reverse = trimStr s
  rw [h1]
  have h2 : (trimStr s).reverse = (s.dropWhile isWsCh).reverse.dropWhile isWsCh := by
    show ((((s.dropWhile isWsCh).reverse.dropWhile isWsCh)).reverse).reverse = _
    rw [List.reverse_reverse]
  rw [h2, dropWhile_idem, ← h2, List.reverse_reverse]

theorem toLower_ws {c : Char} (h : isWsCh c = true) : Char.toLower c = c := by
  unfold Char.toLower
  show (if c.toNat ≥ 65 ∧ c.toNat ≤ 90 then Char.ofNat (c.toNat + 32) else c) = c
  simp [isWsCh] at h
  rw [if_neg (by omega)]

theorem fold_ws_id {a : Str} (h : ∀ c ∈ a, isWsCh c = true) : fold a = a := by
  unfold fold
  induction a with
  | nil => rfl
  | cons c cs ih =>
    rw [List.map_cons, toLower_ws (h c (List.mem_cons_self c cs))]
    rw [ih fun d hd => h d (List.mem_cons_of_mem c hd)]

theorem fold_append (a b : Str) : fold (a ++ b) = fold a ++ fold b :=
  List.map_append _ a b

theorem stripNorm_ws_nil {a : Str} (h : ∀ c ∈ a, isWsCh c = true) :
    stripNorm a = [] := by
  unfold stripNorm
  induction a with
  | nil => rfl
  | cons c cs ih =>
    rw [List.filter_cons]
    rw [if_neg (by
      rw [h c (List.mem_cons_self c cs)]
      simp)]
    exact ih fun d hd => h d (List.mem_cons_of_mem c hd)

theorem stripNorm_append (a b : Str) :
    stripNorm (a ++ b) = stripNorm a ++ stripNorm b :=
  List.filter_append a b

theorem stripNorm_fold_trim (x : Str) :
    stripNorm (fold (trimStr x)) = stripNorm (fold x) := by
  obtain ⟨a, b, hdec, hwa, hwb⟩ := trim_decomp x
  conv_rhs => rw [hdec]
  rw [fold_append, fold_append, stripNorm_append, stripNorm_append]
  rw [fold_ws_id hwa, fold_ws_id hwb, stripNorm_ws_nil hwa, stripNorm_ws_nil hwb]
  rw [List.nil_append, List.append_nil]

theorem normalize_canonical {kb : List KnowledgeEntry} (hwf : KBWellFormed kb)
    {e : KnowledgeEntry} (he : e ∈ kb) :
    normalize kb e.canonicalTerm = e.canonicalTerm := by
  obtain ⟨huniq, hcanon⟩ := hwf
  have hmem : fold (trimStr e.canonicalTerm) ∈ e.aliases.map fold := hcanon e he
  have hsome : (kb.find? fun e' =>
      decide (fold (trimStr e.canonicalTerm) ∈ e'.aliases.map fold)).isSome :=
    List.find?_isSome.mpr ⟨e, he, by rw [decide_eq_true_eq]; exact hmem⟩
  obtain ⟨e0, he0⟩ := Option.isSome_iff_exists.mp hsome
  have he0mem : e0 ∈ kb := List.mem_of_find?_eq_some he0
  have he0p : fold (trimStr e.canonicalTerm) ∈ e0.aliases.map fold := by
    have hp := List.find?_some he0
    rw [decide_eq_true_eq] at hp
    exact hp
  have heq : e0 = e := huniq e0 he0mem e he _ he0p hmem
  unfold normalize
  rw [he0, heq]

/-- C9 (spec-modelled): the multi-tier term normalizer is idempotent on every
input string, given the knowledge-base construction invariant (no two entries
share a case-folded alias and every canonical term is an alias of its own
entry): a canonical-term result is looked up again to itself, and a
passed-through trimmed string matches no tier a second time either. -/
theorem C9_normalize_idempotent (kb : List KnowledgeEntry) (x : Str)
    (hwf : KBWellFormed kb) :
    normalize kb (normalize kb x) = normalize kb x := by
  cases h1 : kb.find? (fun e => decide (fold (trimStr x) ∈ e.aliases.map fold)) with
  | some e =>
    have hr : normalize kb x = e.canonicalTerm := by
      unfold normalize
      rw [h1]
    rw [hr]
    exact normalize_canonical hwf (List.mem_of_find?_eq_some h1)
  | none =>
    cases h2 : kb.find? (fun e => e.patterns.any fun p => findSub (fold p) (fold x)) with
    | some e =>
      have hr : normalize kb x = e.canonicalTerm := by
        unfold normalize
        rw [h1, h2]
      rw [hr]
      exact normalize_canonical hwf (List.mem_of_find?_eq_some h2)
    | none =>
      cases h3 : kb.find? (fun e =>
          decide (stripNorm (fold x) ∈ e.aliases.map fun a => stripNorm (fold a))) with
      | some e =>
        have hr : normalize kb x = e.canonicalTerm := by
          unfold normalize
          rw [h1, h2, h3]
        rw [hr]
        exact normalize_canonical hwf (List.mem_of_find?_eq_some h3)
      | none =>
        have hr : normalize kb x = trimStr x := by
          unfold normalize
          rw [h1, h2, h3]
        rw [hr]
        obtain ⟨a, b, hdec, hwa, hwb⟩ := trim_decomp x
        have e1 : kb.find? (fun e =>
            decide (fold (trimStr (trimStr x)) ∈ e.aliases.map fold)) = none := by
          simp only [trim_idem]
          exact h1
        have e2 : kb.find? (fun e =>
            e.patterns.any fun p => findSub (fold p) (fold (trimStr x))) = none := by
          rw [List.find?_eq_none]
          intro e he
          have h2e := List.find?_eq_none.mp h2 e he
          intro hcon
          apply h2e
          rw [List.any_eq_true] at hcon ⊢
          obtain ⟨p, hp, hfs⟩ := hcon
          refine ⟨p, hp, ?_⟩
          have hfx : fold x = fold a ++ (fold (trimStr x) ++ fold b) := by
            conv_lhs => rw [hdec]
            rw [fold_append, fold_append]
          rw [hfx]
          exact findSub_embed hfs
        have e3 : kb.find? (fun e =>
            decide (stripNorm (fold (trimStr x)) ∈
              e.aliases.map fun a => stripNorm (fold a))) = none := by
          simp only [stripNorm_fold_trim]
          exact h3
        unfold normalize
        rw [e1, e2, e3, trim_idem]

/-- Witness for C9: the two-entry fixture base satisfies the construction
invariant, and normalization of a concrete string is idempotent on it. -/
theorem C9_normalize_idempotent_witness :
    KBWellFormed fixtureKB ∧
    normalize fixtureKB (normalize fixtureKB (("  Muscovite ").data)) =
      normalize fixtureKB (("  Muscovite ").data) := by
  have hwf : KBWellFormed fixtureKB := by
    unfold KBWellFormed
    decide
  exact ⟨hwf, C9_normalize_idempotent fixtureKB (("  Muscovite ").data) hwf⟩

end IonicLink
